import Mathlib

/-!
Shallow embedding of the `time_auction_approximation` module (truthful
cake-auction approximation algorithms) together with proofs about the
claims of its specification.

Conventions of the embedding:
* Python floats are modelled as exact rationals.
* An `Agent` is its identity (a natural number); the valuation oracle the
  agent object exposes (`eval`, `mark`, `cake_length`, `cake_value`) is an
  explicit environment `Agent → AgentF`.
* The external maximum-weight-matching routine is a black-box parameter
  `solver`; per the spec it returns edges of the graph with endpoints in
  arbitrary order.
* Python exceptions are modelled by `Except Err`; `Err.valueError`
  corresponds to `ValueError` (the spec's `InvalidInput`), `Err.typeError`
  to `TypeError`.
* Python sets are modelled as lists; where the source iterates over a set
  (an arbitrary order) the embedding fixes one order, which no claim
  depends on.
-/

/-- Agent identity (the Python `Agent` object, up to identity). -/
abbrev Agent : Type := ℕ

/-- A piece is an interval given by its two endpoints. -/
abbrev Piece : Type := ℚ × ℚ

/-- Modelled from the spec: the valuation-oracle capability set of an
agent (the `Agent` class lives outside `src/`): range value, boundary
query, cake length and total cake value (spec section 6). -/
structure AgentF : Type where
  eval : ℚ → ℚ → ℚ
  mark : ℚ → ℚ → Option ℚ
  cake_length : ℚ
  cake_value : ℚ

/-- The oracle environment: every agent's capabilities. -/
abbrev Env : Type := Agent → AgentF

/-- Python exception kinds raised by the translated code. -/
inductive Err : Type
  | valueError
  | typeError
  deriving DecidableEq

/-- Python `int(x)`: truncation toward zero. -/
def pyInt (q : ℚ) : ℤ := if 0 ≤ q then ⌊q⌋ else ⌈q⌉

/-- Models the rounding to 4 decimal digits of source line 225 (the
source rounds by decimal formatting; exact tie behaviour is immaterial to
the claims, which treat mark positions abstractly). -/
def round4 (q : ℚ) : ℚ := (⌊q * 10000 + 1 / 2⌋ : ℚ) / 10000

/-- Fuel-driven binary logarithm; with fuel ≥ n it computes the floor of
log₂ n (see `log2_fuel_spec`). -/
def log2_fuel : ℕ → ℕ → ℕ
  | 0, _ => 0
  | fuel + 1, n => if 2 ≤ n then log2_fuel fuel (n / 2) + 1 else 0

/-- Python `int(log(m, 2))` of source line 137, in exact-real semantics:
the floor of log₂ m. -/
def int_log2 (n : ℕ) : ℕ := log2_fuel n n

/-- Number of iterations of the `while` loop in `create_partition`
(source lines 261-269): pieces are emitted while their end is ≤ 1. -/
def n_pieces (size start : ℚ) : ℕ := (⌊(1 - start) / size⌋).toNat

/-- The `while end <= 1` loop of `create_partition`: for `0 < size` the
loop runs exactly `n_pieces size start` times, which
`create_partition_loop_spec` proves (the guard is re-checked each step,
exactly as in the source). -/
def create_partition_loop (size : ℚ) : ℕ → ℚ → List Piece
  | 0, _ => []
  | fuel + 1, start =>
    if start + size ≤ 1 then
      (start, start + size) :: create_partition_loop size fuel (start + size)
    else []

/-- `create_partition` (source lines 253-269). For `size ≤ 0` the source
loop never terminates; the claims only concern `0 < size`, and the
embedding returns `[]` in that case, unreachable under the precondition. -/
def create_partition (size : ℚ) (start : ℚ) : List Piece :=
  if 0 < size then create_partition_loop size (n_pieces size start) start else []

/-- `change_partition` (source lines 294-308). Python
`range(0, len(partition) - 2**t + 1, 2**t)` visits `i * 2**t` for
`i < ⌈max(0, len - 2^t + 1) / 2^t⌉`, which truncated ℕ subtraction
mirrors; indexing stays in range (proved with claim C4), so list access
is modelled with a default. -/
def change_partition (partition : List Piece) (t : ℕ) : List Piece :=
  (List.range ((partition.length + 1 - 2 ^ t + (2 ^ t - 1)) / 2 ^ t)).map
    (fun i => ((partition.getD (i * 2 ^ t) (0, 0)).1,
               (partition.getD (i * 2 ^ t + (2 ^ t - 1)) (0, 0)).2))

/-- A node of the matching graph: agents on one side, pieces on the
other. -/
inductive GNode : Type
  | agent (a : Agent)
  | piece (p : Piece)
  deriving DecidableEq

/-- The matching graph (`create_matching_graph`, source lines 326-345):
the nodes declared on each side, plus one weighted edge per entry of the
evaluation dict. The graph library's `add_edge` also implicitly adds
endpoints missing from the declared nodes; the edge list records every
entry of the dict it was given, exactly as in the source. -/
structure MGraph : Type where
  left : List Agent
  right : List Piece
  edges : List (Agent × Piece × ℚ)

/-- `create_matching_graph` (source lines 326-345). -/
def create_matching_graph (left : List Agent) (right : List Piece)
    (weights : List ((Agent × Piece) × ℚ)) : MGraph :=
  ⟨left, right, weights.map (fun w => (w.1.1, w.1.2, w.2))⟩

/-- The external maximum-weight-matching routine, a black box per spec
section 4.4: it returns a set of edges of the graph, each edge's
endpoints in arbitrary order. -/
abbrev Solver : Type := MGraph → List (GNode × GNode)

/-- `fix_edges` (source lines 272-291): reorder every edge to
(agent, piece). A pair with two nodes of the same kind cannot arise from
a matching in a bipartite graph (spec section 4.4) and is dropped. -/
def fix_edges : List (GNode × GNode) → List (Agent × Piece)
  | [] => []
  | (GNode.agent a, GNode.piece p) :: rest => (a, p) :: fix_edges rest
  | (GNode.piece p, GNode.agent a) :: rest => (a, p) :: fix_edges rest
  | (GNode.agent _, GNode.agent _) :: rest => fix_edges rest
  | (GNode.piece _, GNode.piece _) :: rest => fix_edges rest

/-- Weight of one edge as stored in the graph (`g.get_edge_data`): the
first matching entry; 0 for an edge absent from the graph (the solver
contract only returns present edges). -/
def edge_weight (edges : List (Agent × Piece × ℚ)) (a : Agent) (p : Piece) : ℚ :=
  match edges with
  | [] => 0
  | e :: rest => if e.1 = a ∧ e.2.1 = p then e.2.2 else edge_weight rest a p

/-- `calculate_weight` (source lines 311-323). -/
def calculate_weight (g : MGraph) (es : List (Agent × Piece)) : ℚ :=
  (es.map (fun e => edge_weight g.edges e.1 e.2)).sum

/-- Modelled from the spec: the external `Allocation` container (the
`Allocation` class lives outside `src/`): an ordered sequence of chosen
agents, each position holding that agent's assigned piece list (spec
section 6). -/
abbrev Alloc : Type := List (Agent × List Piece)

/-- Modelled from the spec: `Allocation.set_piece(agent_index, pieces)`
assigns the piece list to the agent at that position. -/
def set_piece : Alloc → ℕ → List Piece → Alloc
  | [], _, _ => []
  | x :: xs, 0, ps => (x.1, ps) :: xs
  | x :: xs, i + 1, ps => x :: set_piece xs i ps

/-- Python `list.index`: position of the first occurrence (only ever
called on a present element in the source). -/
def list_index (a : Agent) : List Agent → ℕ
  | [] => 0
  | b :: rest => if b = a then 0 else list_index a rest + 1

/-- Allocation assembly shared by algorithms 1 and 2 (source lines
103-111 and 176-184): the chosen agents are the matched agents, and each
edge assigns its piece (as a one-element list) at its agent's position. -/
def build_allocation (es : List (Agent × Piece)) : Alloc :=
  es.foldl (fun al e => set_piece al (list_index e.1 (es.map (fun x => x.1))) [e.2])
    ((es.map (fun x => x.1)).map (fun a => (a, ([] : List Piece))))

/-- `max([a.cake_length() for a in agents])` (source line 71). -/
def cake_len (env : Env) : List Agent → ℚ
  | [] => 0
  | a :: rest => rest.foldl (fun m b => max m ((env b).cake_length)) ((env a).cake_length)

/-- Normalization of a unit-interval piece to agent coordinates (source
lines 73-75). -/
def normalize_piece (length : ℚ) (p : Piece) : Piece :=
  ((pyInt (p.1 * length) : ℚ), (pyInt (p.2 * length) : ℚ))

/-- The two tilings `P0` and `Pδ` of `equally_sized_pieces` (source
lines 60-67), with `δ = 1 - int(1/l) * l`. -/
def esp_partitions (l : ℚ) : List Piece × List Piece :=
  (create_partition l 0, create_partition l (1 - (pyInt (1 / l) : ℚ) * l))

/-- The normalized piece lists of `equally_sized_pieces` (source lines
69-75): the combined list, the `P0` list and the `Pδ` list. -/
def esp_normalized (env : Env) (agents : List Agent) (l : ℚ) :
    List Piece × List Piece × List Piece :=
  (((esp_partitions l).1 ++ (esp_partitions l).2).map
      (normalize_piece (cake_len env agents)),
   (esp_partitions l).1.map (normalize_piece (cake_len env agents)),
   (esp_partitions l).2.map (normalize_piece (cake_len env agents)))

/-- The evaluation dict of `equally_sized_pieces` (source lines 79-84):
one entry per (piece, agent) pair over the pieces of BOTH tilings. -/
def esp_evaluations (env : Env) (agents : List Agent) (l : ℚ) :
    List ((Agent × Piece) × ℚ) :=
  ((esp_normalized env agents l).1.map
    (fun p => agents.map (fun a => ((a, p), (env a).eval p.1 p.2)))).flatten

/-- The two matching graphs of `equally_sized_pieces` (source lines
87-89): both calls receive the same combined evaluation dict. -/
def esp_graphs (env : Env) (agents : List Agent) (l : ℚ) : MGraph × MGraph :=
  (create_matching_graph agents (esp_normalized env agents l).2.1
      (esp_evaluations env agents l),
   create_matching_graph agents (esp_normalized env agents l).2.2
      (esp_evaluations env agents l))

/-- The winning matching of `equally_sized_pieces` (the `edges_set`
local of source lines 93-101): each tiling's matching from the solver,
reordered, compared by total weight; the `Pδ` matching is kept only when
strictly heavier, so ties go to `P0`. -/
def esp_winner (env : Env) (solver : Solver) (agents : List Agent)
    (piece_size : ℚ) : List (Agent × Piece) :=
  if calculate_weight (esp_graphs env agents piece_size).1
        (fix_edges (solver (esp_graphs env agents piece_size).1)) <
      calculate_weight (esp_graphs env agents piece_size).2
        (fix_edges (solver (esp_graphs env agents piece_size).2)) then
    fix_edges (solver (esp_graphs env agents piece_size).2)
  else
    fix_edges (solver (esp_graphs env agents piece_size).1)

/-- `equally_sized_pieces` (source lines 28-111): validation, the two
graphs over the two tilings, one matching per graph, the heavier matching
(the `P0` one on ties), assembled into an allocation. -/
def equally_sized_pieces (env : Env) (solver : Solver) (agents : List Agent)
    (piece_size : ℚ) : Except Err Alloc :=
  if agents.length = 0 then .error .valueError
  else if ¬(0 < piece_size ∧ piece_size ≤ 1) then .error .valueError
  else .ok (build_allocation (esp_winner env solver agents piece_size))

/-- One iteration of the `for t in range(0, r + 1)` loop of
`discrete_setting` (source lines 145-169): the coarsened partition, its
evaluation dict and graph, the solver's matching (reordered), and that
matching's total weight. -/
def level_data (env : Env) (solver : Solver) (agents : List Agent) (pieces : List Piece)
    (t : ℕ) : ℚ × List (Agent × Piece) :=
  let part := change_partition pieces t
  let evals := (part.map (fun p => agents.map (fun a => ((a, p), (env a).eval p.1 p.2)))).flatten
  let g := create_matching_graph agents part evals
  let es := fix_edges (solver g)
  (calculate_weight g es, es)

/-- All loop iterations of `discrete_setting`: t = 0 .. int(log₂ m). -/
def ds_levels (env : Env) (solver : Solver) (agents : List Agent) (pieces : List Piece) :
    List (ℚ × List (Agent × Piece)) :=
  (List.range (int_log2 pieces.length + 1)).map (level_data env solver agents pieces)

/-- The `max_weight` / `max_match` accumulation of `discrete_setting`
(source lines 139-174): a matching replaces the current best only when
strictly heavier. -/
def best_loop : List (ℚ × List (Agent × Piece)) → ℚ → Option (List (Agent × Piece)) →
    ℚ × Option (List (Agent × Piece))
  | [], w, m => (w, m)
  | x :: xs, w, m => if w < x.1 then best_loop xs x.1 (some x.2) else best_loop xs w m

/-- The matching retained by `discrete_setting`'s loop (the `max_match`
local of source lines 139-174): `none` when no level's weight ever
exceeded the initial 0. -/
def ds_winner (env : Env) (solver : Solver) (agents : List Agent)
    (pieces : List Piece) : Option (List (Agent × Piece)) :=
  (best_loop (ds_levels env solver agents pieces) 0 none).2

/-- `discrete_setting` (source lines 114-184). With an empty pieces list,
Python `log(0, 2)` raises `ValueError` (math domain error) at line 137;
when no level has weight strictly above 0, `max_match` stays `None` and
line 177 raises `TypeError`. -/
def discrete_setting (env : Env) (solver : Solver) (agents : List Agent)
    (pieces : List Piece) : Except Err Alloc :=
  if pieces.length = 0 then .error .valueError
  else
    match ds_winner env solver agents pieces with
    | none => .error .typeError
    | some mm => .ok (build_allocation mm)

/-- The inner mark loop of `continuous_setting` (source lines 217-228):
at most `2n` probes, each advancing the start to the rounded reported
position; a `none` from `mark` stops the loop. -/
def mark_loop (env : Env) (a : Agent) (v : ℚ) : ℕ → ℚ → List ℚ
  | 0, _ => []
  | fuel + 1, start =>
    match (env a).mark start v with
    | none => []
    | some e => round4 e :: mark_loop env a v fuel (round4 e)

/-- Sorted insertion, for `sorted` at source line 232. -/
def insert_le (x : ℚ) : List ℚ → List ℚ
  | [] => [x]
  | y :: ys => if x ≤ y then x :: y :: ys else y :: insert_le x ys

/-- Python `sorted(list(set(xs)))`: the distinct elements of `xs` in
increasing order. -/
def sorted_set (xs : List ℚ) : List ℚ := xs.dedup.foldr insert_le []

/-- The boundary collection of `continuous_setting` (source lines
211-228): the point 0 plus every rounded mark position of every probing
agent, probing sub-ranges worth `cake_value / (2n)`. -/
def cs_boundaries (env : Env) (n : ℕ) (s : List Agent) : List ℚ :=
  0 :: (s.map (fun a => mark_loop env a ((env a).cake_value / (2 * (n : ℚ))) (2 * n) 0)).flatten

/-- `continuous_setting` (source lines 187-250). The random draw
`random.choices(agents, k=n//2)` is the parameter `s` (spec section 5
requires the randomness source to be injectable); the arbitrarily
ordered `list(set(agents) - set(s))` is modelled as the remaining agents
with duplicates collapsed. -/
def continuous_setting (env : Env) (solver : Solver) (agents : List Agent)
    (s : List Agent) : Except Err Alloc :=
  let bounds := sorted_set (cs_boundaries env agents.length s)
  let pieces := bounds.zip bounds.tail
  let rest := (agents.filter (fun a => decide (a ∉ s))).dedup
  discrete_setting env solver rest pieces

/-! ### Concrete test data used by witnesses and counterexamples -/

/-- Test environment: uniform density on a cake of length 5 (matches the
doctest agents of lengths-5 cakes). -/
def env5 : Env := fun _ =>
  { eval := fun s e => e - s, mark := fun _ _ => none,
    cake_length := 5, cake_value := 5 }

/-- Test environment: constant value 1 for every range on a unit cake. -/
def env1 : Env := fun _ =>
  { eval := fun _ _ => 1, mark := fun _ _ => none,
    cake_length := 1, cake_value := 1 }

/-- Test environment: every range is worth 0. -/
def env0 : Env := fun _ =>
  { eval := fun _ _ => 0, mark := fun _ _ => none,
    cake_length := 1, cake_value := 0 }

/-- Test environment with a working mark oracle: the cake has length 2
and total value 4, value accruing at rate 2. -/
def env2 : Env := fun _ =>
  { eval := fun s e => e - s,
    mark := fun start v => if start + v ≤ 2 then some (start + v) else none,
    cake_length := 2, cake_value := 4 }

/-- A solver returning the graph's first edge (a one-edge matching),
endpoints in (agent, piece) order. -/
def take_one_solver : Solver := fun g =>
  match g.edges with
  | [] => []
  | e :: _ => [(GNode.agent e.1, GNode.piece e.2.1)]

/-! ### Basic facts about the numeric helpers -/

/-- `log2_fuel` computes the floor of the binary logarithm once the fuel
dominates the argument. -/
lemma log2_fuel_spec : ∀ (fuel n : ℕ), 1 ≤ n → n ≤ fuel →
    2 ^ log2_fuel fuel n ≤ n ∧ n < 2 ^ (log2_fuel fuel n + 1) := by
  intro fuel
  induction fuel with
  | zero => intro n h1 h2; omega
  | succ fuel ih =>
    intro n h1 h2
    by_cases h : 2 ≤ n
    · have hrec := ih (n / 2) (by omega) (by omega)
      have heq : log2_fuel (fuel + 1) n = log2_fuel fuel (n / 2) + 1 := by
        simp [log2_fuel, h]
      rw [heq]
      constructor
      · calc 2 ^ (log2_fuel fuel (n / 2) + 1) = 2 ^ log2_fuel fuel (n / 2) * 2 := by ring
        _ ≤ (n / 2) * 2 := by exact Nat.mul_le_mul_right 2 hrec.1
        _ ≤ n := by omega
      · have := hrec.2
        calc n < (n / 2) * 2 + 2 := by omega
        _ ≤ (2 ^ (log2_fuel fuel (n / 2) + 1) - 1) * 2 + 2 := by
              have : n / 2 ≤ 2 ^ (log2_fuel fuel (n / 2) + 1) - 1 := by omega
              exact Nat.add_le_add_right (Nat.mul_le_mul_right 2 this) 2
        _ ≤ 2 ^ (log2_fuel fuel (n / 2) + 1 + 1) := by
              have h2p : 1 ≤ 2 ^ (log2_fuel fuel (n / 2) + 1) := Nat.one_le_two_pow
              have hpow : 2 ^ (log2_fuel fuel (n / 2) + 1 + 1) =
                  2 ^ (log2_fuel fuel (n / 2) + 1) * 2 := by ring
              omega
    · have heq : log2_fuel (fuel + 1) n = 0 := by simp [log2_fuel, h]
      rw [heq]
      constructor
      · simpa using h1
      · simpa using by omega

/-! ### The `create_partition` while loop -/

/-- The loop of `create_partition` emits exactly the pieces
`(start + i*size, start + (i+1)*size)` whose end stays within the cake. -/
lemma create_partition_loop_spec (size : ℚ) (hs : 0 < size) :
    ∀ (n : ℕ) (start : ℚ), (⌊(1 - start) / size⌋).toNat = n →
      create_partition_loop size n start =
        (List.range n).map
          (fun i : ℕ => (start + (i : ℚ) * size, start + ((i : ℚ) + 1) * size)) := by
  intro n
  induction n with
  | zero =>
    intro start _
    simp [create_partition_loop]
  | succ n ih =>
    intro start hn
    have hfl : (1 : ℤ) ≤ ⌊(1 - start) / size⌋ := by omega
    have h1 : (1 : ℚ) ≤ (1 - start) / size := by exact_mod_cast Int.le_floor.mp hfl
    have hle : start + size ≤ 1 := by
      have h2 : 1 * size ≤ 1 - start := (le_div_iff₀ hs).mp h1
      linarith
    have hnext : (⌊(1 - (start + size)) / size⌋).toNat = n := by
      have key : (1 - (start + size)) / size = (1 - start) / size - 1 := by
        field_simp
        ring
      rw [key, Int.floor_sub_one]
      omega
    rw [create_partition_loop, if_pos hle, ih (start + size) hnext,
      List.range_succ_eq_map, List.map_cons, List.map_map]
    refine List.cons_eq_cons.mpr ⟨by norm_num, List.map_congr_left ?_⟩
    intro i _
    simp only [Function.comp_apply, Prod.mk.injEq, Nat.succ_eq_add_one]
    constructor
    · push_cast
      ring
    · push_cast
      ring

/-- Membership form of the loop characterization: every emitted piece is
one `size`-long step of the arithmetic progression starting at `start`. -/
lemma create_partition_mem (size start : ℚ) (hs : 0 < size) (q : Piece)
    (hq : q ∈ create_partition size start) : q.2 = q.1 + size ∧ start ≤ q.1 := by
  rw [create_partition, if_pos hs,
    create_partition_loop_spec size hs (n_pieces size start) start rfl] at hq
  rcases List.mem_map.mp hq with ⟨i, -, rfl⟩
  constructor
  · show start + ((i : ℚ) + 1) * size = start + (i : ℚ) * size + size
    ring
  · show start ≤ start + (i : ℚ) * size
    have : 0 ≤ (i : ℚ) * size := mul_nonneg (by positivity) hs.le
    linarith

/-- C5: for `0 < size ≤ 1`, `createPartition` returns exactly the
consecutive pieces `(start + i*size, start + (i+1)*size)` for
`i = 0, 1, ...` while the piece's end does not exceed 1; the trailing
fragment is dropped (the next piece would end beyond 1). Identical
arguments yield identical outputs since `create_partition` is a function
of its two arguments. -/
theorem claim_c5_create_partition (size start : ℚ) (h1 : 0 < size) (h2 : size ≤ 1) :
    create_partition size start =
      (List.range (n_pieces size start)).map
        (fun i : ℕ => (start + (i : ℚ) * size, start + ((i : ℚ) + 1) * size)) ∧
    (∀ i : ℕ, i < n_pieces size start → start + ((i : ℚ) + 1) * size ≤ 1) ∧
    1 < start + ((n_pieces size start : ℚ) + 1) * size := by
  refine ⟨?_, ?_, ?_⟩
  · rw [create_partition, if_pos h1]
    exact create_partition_loop_spec size h1 (n_pieces size start) start rfl
  · intro i hi
    have hfl : (i : ℤ) + 1 ≤ ⌊(1 - start) / size⌋ := by
      have := Int.self_le_toNat ⌊(1 - start) / size⌋
      unfold n_pieces at hi
      omega
    have h3 : ((i : ℚ) + 1) ≤ (1 - start) / size := by exact_mod_cast Int.le_floor.mp hfl
    have h4 : ((i : ℚ) + 1) * size ≤ 1 - start := (le_div_iff₀ h1).mp h3
    linarith
  · have h5 : (1 - start) / size < ⌊(1 - start) / size⌋ + 1 := Int.lt_floor_add_one _
    have h6 : (⌊(1 - start) / size⌋ : ℚ) ≤ ((n_pieces size start : ℚ)) := by
      unfold n_pieces
      exact_mod_cast Int.self_le_toNat _
    have h7 : (1 - start) / size < (n_pieces size start : ℚ) + 1 := by linarith
    have h8 : 1 - start < ((n_pieces size start : ℚ) + 1) * size := by
      exact (div_lt_iff₀ h1).mp h7
    linarith

/-- Witness for C5 at `size = 1`, `start = 0`. -/
theorem claim_c5_witness :
    create_partition 1 0 =
      (List.range (n_pieces 1 0)).map
        (fun i : ℕ => ((0 : ℚ) + (i : ℚ) * 1, (0 : ℚ) + ((i : ℚ) + 1) * 1)) :=
  (claim_c5_create_partition 1 0 (by norm_num) (by norm_num)).1

/-! ### `change_partition` -/

/-- The iteration count of `change_partition` equals `len / 2^t`. -/
lemma change_partition_count (m t : ℕ) :
    (m + 1 - 2 ^ t + (2 ^ t - 1)) / 2 ^ t = m / 2 ^ t := by
  have hk : 1 ≤ 2 ^ t := Nat.one_le_two_pow
  by_cases h : m < 2 ^ t
  · have h1 : m + 1 - 2 ^ t = 0 := by omega
    rw [h1]
    rw [Nat.div_eq_of_lt (by omega), Nat.div_eq_of_lt h]
  · have h1 : m + 1 - 2 ^ t + (2 ^ t - 1) = m := by omega
    rw [h1]

/-- C4: `coarsenPartition` returns exactly `⌊m / 2^t⌋` pieces; the i-th
output piece runs from the start of input piece `i·2^t` to the end of
input piece `(i+1)·2^t - 1`; and exactly `m mod 2^t` trailing input
pieces are dropped (the outputs cover `len · 2^t = m - m mod 2^t`
inputs). -/
theorem claim_c4_change_partition (partition : List Piece) (t : ℕ) :
    (change_partition partition t).length = partition.length / 2 ^ t ∧
    (∀ i : ℕ, i < partition.length / 2 ^ t →
      (change_partition partition t).getD i ((0 : ℚ), (0 : ℚ)) =
        ((partition.getD (i * 2 ^ t) ((0 : ℚ), (0 : ℚ))).1,
         (partition.getD ((i + 1) * 2 ^ t - 1) ((0 : ℚ), (0 : ℚ))).2)) ∧
    (change_partition partition t).length * 2 ^ t + partition.length % 2 ^ t =
      partition.length := by
  have hk : 1 ≤ 2 ^ t := Nat.one_le_two_pow
  have hlen : (change_partition partition t).length = partition.length / 2 ^ t := by
    simp [change_partition, change_partition_count]
  refine ⟨hlen, ?_, ?_⟩
  · intro i hi
    have hc : i < (partition.length + 1 - 2 ^ t + (2 ^ t - 1)) / 2 ^ t := by
      rw [change_partition_count]
      exact hi
    have hidx : i * 2 ^ t + (2 ^ t - 1) = (i + 1) * 2 ^ t - 1 := by
      have h2 : (i + 1) * 2 ^ t = i * 2 ^ t + 2 ^ t := by ring
      omega
    unfold change_partition
    rw [List.getD_eq_getElem _ _ (by simpa using hc)]
    rw [List.getElem_map, List.getElem_range, hidx]
  · rw [hlen, Nat.mul_comm]
    exact Nat.div_add_mod _ _

/-- Witness for C4 on a three-piece partition with `t = 1`. -/
theorem claim_c4_witness :
    (change_partition
        [((0 : ℚ), (1 : ℚ)), ((1 : ℚ), (2 : ℚ)), ((2 : ℚ), (3 : ℚ))] 1).getD 0
        ((0 : ℚ), (0 : ℚ)) =
      (([((0 : ℚ), (1 : ℚ)), ((1 : ℚ), (2 : ℚ)), ((2 : ℚ), (3 : ℚ))].getD (0 * 2 ^ 1)
          ((0 : ℚ), (0 : ℚ))).1,
       ([((0 : ℚ), (1 : ℚ)), ((1 : ℚ), (2 : ℚ)), ((2 : ℚ), (3 : ℚ))].getD ((0 + 1) * 2 ^ 1 - 1)
          ((0 : ℚ), (0 : ℚ))).2) :=
  (claim_c4_change_partition
    [((0 : ℚ), (1 : ℚ)), ((1 : ℚ), (2 : ℚ)), ((2 : ℚ), (3 : ℚ))] 1).2.1 0 (by norm_num)

/-! ### The best-matching accumulation of `discrete_setting` -/

/-- Characterization of the `max_weight`/`max_match` loop: either nothing
ever exceeded the initial weight (state unchanged), or the final state is
the first element attaining the maximum weight of the list (strict
improvement over everything earlier, at least as heavy as everything). -/
lemma best_loop_spec (d : ℚ × List (Agent × Piece)) :
    ∀ (xs : List (ℚ × List (Agent × Piece))) (w : ℚ)
      (om : Option (List (Agent × Piece))),
      (best_loop xs w om = (w, om) ∧ ∀ j, j < xs.length → (xs.getD j d).1 ≤ w) ∨
      (∃ i, i < xs.length ∧
        best_loop xs w om = ((xs.getD i d).1, some (xs.getD i d).2) ∧
        w < (xs.getD i d).1 ∧
        (∀ j, j < xs.length → (xs.getD j d).1 ≤ (xs.getD i d).1) ∧
        (∀ j, j < i → (xs.getD j d).1 < (xs.getD i d).1)) := by
  intro xs
  induction xs with
  | nil =>
    intro w om
    left
    exact ⟨rfl, by intro j hj; simp at hj⟩
  | cons x xs ih =>
    intro w om
    by_cases hw : w < x.1
    · rw [best_loop, if_pos hw]
      rcases ih x.1 (some x.2) with ⟨heq, hall⟩ | ⟨i, hi, heq, hlt, hmax, hfirst⟩
      · right
        refine ⟨0, by simp, by simpa using heq, by simpa using hw, ?_, ?_⟩
        · intro j hj
          cases j with
          | zero => simp
          | succ j =>
            simp only [List.getD_cons_succ, List.getD_cons_zero]
            exact hall j (by simpa using hj)
        · intro j hj
          omega
      · right
        refine ⟨i + 1, by simpa using hi, by simpa using heq, ?_, ?_, ?_⟩
        · simpa using lt_trans hw hlt
        · intro j hj
          cases j with
          | zero =>
            simpa using le_of_lt (lt_of_lt_of_le hlt (le_refl _))
          | succ j =>
            simpa using hmax j (by simpa using hj)
        · intro j hj
          cases j with
          | zero => simpa using hlt
          | succ j =>
            simpa using hfirst j (by omega)
    · rw [best_loop, if_neg hw]
      rcases ih w om with ⟨heq, hall⟩ | ⟨i, hi, heq, hlt, hmax, hfirst⟩
      · left
        refine ⟨heq, ?_⟩
        intro j hj
        cases j with
        | zero => simpa using not_lt.mp hw
        | succ j =>
          simpa using hall j (by simpa using hj)
      · right
        refine ⟨i + 1, by simpa using hi, by simpa using heq, hlt, ?_, ?_⟩
        · intro j hj
          cases j with
          | zero => simpa using le_trans (not_lt.mp hw) (le_of_lt hlt)
          | succ j => simpa using hmax j (by simpa using hj)
        · intro j hj
          cases j with
          | zero => simpa using lt_of_le_of_lt (not_lt.mp hw) hlt
          | succ j => simpa using hfirst j (by omega)

/-- Indexing the level list of `discrete_setting` gives the level data. -/
lemma ds_levels_getD (env : Env) (solver : Solver) (agents : List Agent)
    (pieces : List Piece) (i : ℕ) (hi : i < int_log2 pieces.length + 1)
    (d : ℚ × List (Agent × Piece)) :
    (ds_levels env solver agents pieces).getD i d =
      level_data env solver agents pieces i := by
  unfold ds_levels
  rw [List.getD_eq_getElem _ _ (by simpa using hi)]
  rw [List.getElem_map, List.getElem_range]

/-- The length of the level list. -/
lemma ds_levels_length (env : Env) (solver : Solver) (agents : List Agent)
    (pieces : List Piece) :
    (ds_levels env solver agents pieces).length = int_log2 pieces.length + 1 := by
  simp [ds_levels]

/-- C2: whenever `discreteSetting` returns an allocation, that allocation
is built from the matching of some level `t ≤ int(log₂ m)` whose weight
is strictly positive, at least as large as the weight of the matching
computed at EVERY level (including `t = 0` and the coarsest level), and
strictly larger than the weight of every earlier (finer) level — so on
ties the smallest such `t` is the one returned. -/
theorem claim_c2_discrete_setting_best (env : Env) (solver : Solver)
    (agents : List Agent) (pieces : List Piece) (a : Alloc)
    (h : discrete_setting env solver agents pieces = .ok a) :
    ∃ t, t ≤ int_log2 pieces.length ∧
      a = build_allocation (level_data env solver agents pieces t).2 ∧
      0 < (level_data env solver agents pieces t).1 ∧
      (∀ u, u ≤ int_log2 pieces.length →
        (level_data env solver agents pieces u).1 ≤
          (level_data env solver agents pieces t).1) ∧
      (∀ u, u < t →
        (level_data env solver agents pieces u).1 <
          (level_data env solver agents pieces t).1) := by
  unfold discrete_setting at h
  split at h
  · exact absurd h (by simp)
  · split at h
    · exact absurd h (by simp)
    · rename_i mm hmatch
      rw [ds_winner] at hmatch
      have ha : a = build_allocation mm := (Except.ok.inj h).symm
      rcases best_loop_spec ((0 : ℚ), ([] : List (Agent × Piece)))
          (ds_levels env solver agents pieces) 0 none with
        ⟨heq, -⟩ | ⟨i, hi, heq, hpos, hmax, hfirst⟩
      · rw [heq] at hmatch
        exact absurd hmatch (by simp)
      · have hlen := ds_levels_length env solver agents pieces
        rw [hlen] at hi
        have hgetD := ds_levels_getD env solver agents pieces i hi
          ((0 : ℚ), ([] : List (Agent × Piece)))
        rw [heq] at hmatch
        have hmm : mm =
            ((ds_levels env solver agents pieces).getD i
              ((0 : ℚ), ([] : List (Agent × Piece)))).2 :=
          (Option.some.inj hmatch).symm
        refine ⟨i, by omega, ?_, ?_, ?_, ?_⟩
        · rw [ha, hmm, hgetD]
        · have h2 := hpos
          rw [hgetD] at h2
          exact h2
        · intro u hu
          have h2 := hmax u (by omega)
          rw [ds_levels_getD env solver agents pieces u (by omega)
            ((0 : ℚ), ([] : List (Agent × Piece))), hgetD] at h2
          exact h2
        · intro u hu
          have h2 := hfirst u hu
          rw [ds_levels_getD env solver agents pieces u (by omega)
            ((0 : ℚ), ([] : List (Agent × Piece))), hgetD] at h2
          exact h2

/-- Concrete run of `discrete_setting`: one agent valuing everything 1,
one piece. -/
lemma ds_run_env1 : discrete_setting env1 take_one_solver [0] [((0 : ℚ), (1 : ℚ))] =
    .ok [(0, [((0 : ℚ), (1 : ℚ))])] := by
  norm_num [discrete_setting, ds_winner, ds_levels, int_log2, log2_fuel,
    level_data, change_partition, create_matching_graph, take_one_solver,
    fix_edges, calculate_weight, edge_weight, best_loop, build_allocation,
    list_index, set_piece, env1, List.range_succ]

/-- Witness for C2: the concrete run above, fed through the theorem. -/
theorem claim_c2_witness :
    ∃ t, t ≤ int_log2 ([((0 : ℚ), (1 : ℚ))] : List Piece).length ∧
      ([(0, [((0 : ℚ), (1 : ℚ))])] : Alloc) =
        build_allocation
          (level_data env1 take_one_solver [0] [((0 : ℚ), (1 : ℚ))] t).2 ∧
      0 < (level_data env1 take_one_solver [0] [((0 : ℚ), (1 : ℚ))] t).1 ∧
      (∀ u, u ≤ int_log2 ([((0 : ℚ), (1 : ℚ))] : List Piece).length →
        (level_data env1 take_one_solver [0] [((0 : ℚ), (1 : ℚ))] u).1 ≤
          (level_data env1 take_one_solver [0] [((0 : ℚ), (1 : ℚ))] t).1) ∧
      (∀ u, u < t →
        (level_data env1 take_one_solver [0] [((0 : ℚ), (1 : ℚ))] u).1 <
          (level_data env1 take_one_solver [0] [((0 : ℚ), (1 : ℚ))] t).1) :=
  claim_c2_discrete_setting_best env1 take_one_solver [0] [((0 : ℚ), (1 : ℚ))]
    [(0, [((0 : ℚ), (1 : ℚ))])] ds_run_env1

/-! ### Allocation assembly from a matching -/

/-- `set_piece` at the first index past a prefix acts on the suffix. -/
lemma set_piece_append (pre rest : Alloc) (ps : List Piece) :
    set_piece (pre ++ rest) pre.length ps = pre ++ set_piece rest 0 ps := by
  induction pre with
  | nil => simp
  | cons x xs ih => simp [set_piece, ih]

/-- Processing the edges one by one fills in each agent's piece when the
index function sends the j-th remaining edge to position `|pre| + j`. -/
lemma build_fold (chosen : List Agent) :
    ∀ (todo : List (Agent × Piece)) (pre : Alloc),
      (∀ j, ∀ hj : j < todo.length,
        list_index ((todo.get ⟨j, hj⟩).1) chosen = pre.length + j) →
      todo.foldl (fun al e => set_piece al (list_index e.1 chosen) [e.2])
          (pre ++ todo.map (fun e => (e.1, ([] : List Piece)))) =
        pre ++ todo.map (fun e => (e.1, [e.2])) := by
  intro todo
  induction todo with
  | nil => intro pre _; simp
  | cons e todo ih =>
    intro pre hidx
    have h0 : list_index e.1 chosen = pre.length := by
      simpa using hidx 0 (by simp)
    simp only [List.map_cons, List.foldl_cons, h0]
    have hsp : set_piece (pre ++ (e.1, ([] : List Piece)) ::
        todo.map (fun e => (e.1, ([] : List Piece)))) pre.length [e.2] =
        (pre ++ [(e.1, [e.2])]) ++ todo.map (fun e => (e.1, ([] : List Piece))) := by
      rw [set_piece_append]
      simp [set_piece]
    rw [hsp]
    have ih2 := ih (pre ++ [(e.1, [e.2])]) (by
      intro j hj
      have := hidx (j + 1) (by simpa using Nat.succ_lt_succ hj)
      simpa [Nat.add_assoc, Nat.add_comm 1 j] using this)
    rw [ih2]
    simp

/-- In a duplicate-free agent list, `list.index` of the j-th agent is j. -/
lemma list_index_of_nodup :
    ∀ (es : List (Agent × Piece)),
      ((es.map (fun x => x.1)).Nodup) →
      ∀ j, ∀ hj : j < es.length,
        list_index ((es.get ⟨j, hj⟩).1) (es.map (fun x => x.1)) = j := by
  intro es
  induction es with
  | nil => intro _ j hj; simp at hj
  | cons e es ih =>
    intro hnd j hj
    rw [List.map_cons, List.nodup_cons] at hnd
    cases j with
    | zero => simp [list_index]
    | succ j =>
      have hj2 : j < es.length := by simpa using hj
      have hmem : ((es.get ⟨j, hj2⟩).1) ∈ es.map (fun x => x.1) :=
        List.mem_map_of_mem _ (es.get_mem j hj2)
      have hne : e.1 ≠ (es.get ⟨j, hj2⟩).1 := by
        intro hcontra
        exact hnd.1 (hcontra ▸ hmem)
      simp only [List.map_cons, List.get_cons_succ, list_index]
      rw [if_neg hne, ih hnd.2 j hj2]

/-- With duplicate-free matched agents, the assembled allocation is
literally the matching, each piece as a one-element list. -/
lemma build_allocation_eq (es : List (Agent × Piece))
    (h : (es.map (fun x => x.1)).Nodup) :
    build_allocation es = es.map (fun e => (e.1, [e.2])) := by
  have hfold := build_fold (es.map (fun x => x.1)) es []
    (by simpa using list_index_of_nodup es h)
  unfold build_allocation
  simpa [List.map_map, Function.comp] using hfold

/-- The allocation built from a valid matching (distinct agents, distinct
pieces) has: exactly the matched agents as entries, pairwise-distinct
chosen agents, exactly one piece per chosen agent, and pairwise-distinct
assigned piece lists. -/
lemma matching_alloc_props (es : List (Agent × Piece))
    (h1 : (es.map (fun x => x.1)).Nodup) (h2 : (es.map (fun x => x.2)).Nodup) :
    build_allocation es = es.map (fun e => (e.1, [e.2])) ∧
    ((build_allocation es).map (fun q => q.1)).Nodup ∧
    (∀ q ∈ build_allocation es, ∃ p : Piece, q.2 = [p]) ∧
    ((build_allocation es).map (fun q => q.2)).Nodup := by
  have heq := build_allocation_eq es h1
  refine ⟨heq, ?_, ?_, ?_⟩
  · rw [heq]
    simpa [List.map_map, Function.comp] using h1
  · intro q hq
    rw [heq] at hq
    rcases List.mem_map.mp hq with ⟨e, -, rfl⟩
    exact ⟨e.2, rfl⟩
  · rw [heq]
    have : (es.map (fun e => (e.1, [e.2]))).map (fun q => q.2) =
        (es.map (fun x => x.2)).map (fun p => [p]) := by
      simp [List.map_map, Function.comp]
    rw [this]
    exact h2.map (fun p q hpq => by simpa using hpq)

/-- The matching retained by the accumulation loop, if any, is one of the
iterations' matchings (or the initial one). -/
lemma best_loop_snd_mem :
    ∀ (xs : List (ℚ × List (Agent × Piece))) (w : ℚ)
      (om : Option (List (Agent × Piece))),
      (best_loop xs w om).2 = om ∨
      ∃ x ∈ xs, (best_loop xs w om).2 = some x.2 := by
  intro xs
  induction xs with
  | nil => intro w om; left; rfl
  | cons x xs ih =>
    intro w om
    by_cases hw : w < x.1
    · rw [best_loop, if_pos hw]
      rcases ih x.1 (some x.2) with heq | ⟨y, hy, heq⟩
      · right; exact ⟨x, by simp, heq⟩
      · right; exact ⟨y, by simp [hy], heq⟩
    · rw [best_loop, if_neg hw]
      rcases ih w om with heq | ⟨y, hy, heq⟩
      · left; exact heq
      · right; exact ⟨y, by simp [hy], heq⟩

/-- `take_one_solver` always yields a valid matching (at most one edge). -/
lemma take_one_solver_valid (g : MGraph) :
    ((fix_edges (take_one_solver g)).map (fun e => e.1)).Nodup ∧
    ((fix_edges (take_one_solver g)).map (fun e => e.2)).Nodup := by
  cases hg : g.edges with
  | nil => simp [take_one_solver, hg, fix_edges]
  | cons e rest => simp [take_one_solver, hg, fix_edges]

/-- The matching of a level of `discrete_setting`, explicitly. -/
lemma level_data_snd (env : Env) (solver : Solver) (agents : List Agent)
    (pieces : List Piece) (t : ℕ) :
    (level_data env solver agents pieces t).2 =
      fix_edges (solver (create_matching_graph agents (change_partition pieces t)
        ((change_partition pieces t).map
          (fun p => agents.map (fun a => ((a, p), (env a).eval p.1 p.2)))).flatten)) :=
  rfl

/-- The winning matching of `equally_sized_pieces` consists of the
vertex-disjoint edges the solver contract guarantees, whichever tiling
won. -/
lemma esp_winner_nodup (env : Env) (solver : Solver) (agents : List Agent)
    (l : ℚ)
    (hsolver : ∀ g : MGraph,
      ((fix_edges (solver g)).map (fun e => e.1)).Nodup ∧
      ((fix_edges (solver g)).map (fun e => e.2)).Nodup) :
    ((esp_winner env solver agents l).map (fun e => e.1)).Nodup ∧
    ((esp_winner env solver agents l).map (fun e => e.2)).Nodup := by
  unfold esp_winner
  split
  · exact hsolver _
  · exact hsolver _

/-- Full description of the allocation assembled from a valid matching:
it is the matching itself (in order), so its chosen agents are exactly
the matched agents, each matched agent receives precisely its matched
piece as a one-element list, and no agent or piece repeats. -/
lemma alloc_full_props (es : List (Agent × Piece))
    (h1 : (es.map (fun e => e.1)).Nodup) (h2 : (es.map (fun e => e.2)).Nodup) :
    build_allocation es = es.map (fun e => (e.1, [e.2])) ∧
    (build_allocation es).map (fun q => q.1) = es.map (fun e => e.1) ∧
    ((build_allocation es).map (fun q => q.1)).Nodup ∧
    (∀ e ∈ es, (e.1, [e.2]) ∈ build_allocation es) ∧
    (∀ q ∈ build_allocation es, ∃ p : Piece, q.2 = [p]) ∧
    ((build_allocation es).map (fun q => q.2)).Nodup := by
  obtain ⟨heq, hn1, hone, hn2⟩ := matching_alloc_props es h1 h2
  refine ⟨heq, ?_, hn1, ?_, hone, hn2⟩
  · rw [heq]
    simp [List.map_map, Function.comp]
  · intro e he
    rw [heq]
    exact List.mem_map_of_mem _ he

/-- C3: whenever `equallySizedPieces` returns an allocation (under the
solver contract: each returned edge set is a matching with distinct
agents and distinct pieces), that allocation is exactly the winning
matching `esp_winner`: the chosen agents are precisely the matched
agents (so agents not in the winning matching do not appear), pairwise
distinct, each chosen agent is assigned exactly the one piece matched to
it, and no piece is assigned twice; and independently, whenever
`discreteSetting` returns an allocation, the same holds of the retained
matching `ds_winner`. -/
theorem claim_c3_allocation_invariants (env : Env) (solver : Solver)
    (agents : List Agent) (l : ℚ) (pieces : List Piece) (a b : Alloc)
    (hsolver : ∀ g : MGraph,
      ((fix_edges (solver g)).map (fun e => e.1)).Nodup ∧
      ((fix_edges (solver g)).map (fun e => e.2)).Nodup) :
    (equally_sized_pieces env solver agents l = .ok a →
      ((esp_winner env solver agents l).map (fun e => e.1)).Nodup ∧
      ((esp_winner env solver agents l).map (fun e => e.2)).Nodup ∧
      a = (esp_winner env solver agents l).map (fun e => (e.1, [e.2])) ∧
      a.map (fun q => q.1) = (esp_winner env solver agents l).map (fun e => e.1) ∧
      (a.map (fun q => q.1)).Nodup ∧
      (∀ e ∈ esp_winner env solver agents l, (e.1, [e.2]) ∈ a) ∧
      (∀ q ∈ a, ∃ p : Piece, q.2 = [p]) ∧
      (a.map (fun q => q.2)).Nodup) ∧
    (discrete_setting env solver agents pieces = .ok b →
      ∃ es : List (Agent × Piece),
        ds_winner env solver agents pieces = some es ∧
        (es.map (fun e => e.1)).Nodup ∧ (es.map (fun e => e.2)).Nodup ∧
        b = es.map (fun e => (e.1, [e.2])) ∧
        b.map (fun q => q.1) = es.map (fun e => e.1) ∧
        (b.map (fun q => q.1)).Nodup ∧
        (∀ e ∈ es, (e.1, [e.2]) ∈ b) ∧
        (∀ q ∈ b, ∃ p : Piece, q.2 = [p]) ∧
        (b.map (fun q => q.2)).Nodup) := by
  constructor
  · intro ha
    rw [equally_sized_pieces] at ha
    split at ha
    · exact absurd ha (by simp)
    · split at ha
      · exact absurd ha (by simp)
      · have ha2 : a = build_allocation (esp_winner env solver agents l) :=
          (Except.ok.inj ha).symm
        have hn := esp_winner_nodup env solver agents l hsolver
        obtain ⟨heq, hfst, hn1, hmem, hone, hn2⟩ :=
          alloc_full_props (esp_winner env solver agents l) hn.1 hn.2
        subst ha2
        exact ⟨hn.1, hn.2, heq, hfst, hn1, hmem, hone, hn2⟩
  · intro hb
    rw [discrete_setting] at hb
    split at hb
    · exact absurd hb (by simp)
    · split at hb
      · exact absurd hb (by simp)
      · rename_i mm hmatch
        have hbb : b = build_allocation mm := (Except.ok.inj hb).symm
        have hmm_shape : ∃ g, mm = fix_edges (solver g) := by
          have h2 := hmatch
          rw [ds_winner] at h2
          rcases best_loop_snd_mem (ds_levels env solver agents pieces) 0 none with
            heq | ⟨x, hx, heq⟩
          · rw [heq] at h2
            exact absurd h2 (by simp)
          · rw [heq] at h2
            have hx2 : mm = x.2 := (Option.some.inj h2).symm
            rcases List.mem_map.mp hx with ⟨t, -, rfl⟩
            rw [level_data_snd] at hx2
            exact ⟨_, hx2⟩
        rcases hmm_shape with ⟨g, rfl⟩
        obtain ⟨heq, hfst, hn1, hmem, hone, hn2⟩ :=
          alloc_full_props (fix_edges (solver g)) (hsolver g).1 (hsolver g).2
        subst hbb
        exact ⟨fix_edges (solver g), hmatch, (hsolver g).1, (hsolver g).2, heq,
          hfst, hn1, hmem, hone, hn2⟩

/-- Concrete run of `equally_sized_pieces`: one agent on a unit cake,
piece size 1. -/
lemma esp_run_env1 : equally_sized_pieces env1 take_one_solver [0] 1 =
    .ok [(0, [((0 : ℚ), (1 : ℚ))])] := by
  norm_num [equally_sized_pieces, esp_winner, esp_graphs, esp_normalized,
    esp_partitions, esp_evaluations, create_partition, n_pieces,
    create_partition_loop, pyInt, cake_len, normalize_piece, take_one_solver,
    fix_edges, edge_weight, calculate_weight, build_allocation, list_index,
    set_piece, env1, create_matching_graph]

/-- Witness for C3: both algorithms on concrete inputs, each implication
discharged by its own concrete successful run. -/
theorem claim_c3_witness :
    (((esp_winner env1 take_one_solver [0] 1).map (fun e => e.1)).Nodup ∧
     ((esp_winner env1 take_one_solver [0] 1).map (fun e => e.2)).Nodup ∧
     ([(0, [((0 : ℚ), (1 : ℚ))])] : Alloc) =
       (esp_winner env1 take_one_solver [0] 1).map (fun e => (e.1, [e.2])) ∧
     ([(0, [((0 : ℚ), (1 : ℚ))])] : Alloc).map (fun q => q.1) =
       (esp_winner env1 take_one_solver [0] 1).map (fun e => e.1) ∧
     (([(0, [((0 : ℚ), (1 : ℚ))])] : Alloc).map (fun q => q.1)).Nodup ∧
     (∀ e ∈ esp_winner env1 take_one_solver [0] 1,
       (e.1, [e.2]) ∈ ([(0, [((0 : ℚ), (1 : ℚ))])] : Alloc)) ∧
     (∀ q ∈ ([(0, [((0 : ℚ), (1 : ℚ))])] : Alloc), ∃ p : Piece, q.2 = [p]) ∧
     (([(0, [((0 : ℚ), (1 : ℚ))])] : Alloc).map (fun q => q.2)).Nodup) ∧
    (∃ es : List (Agent × Piece),
      ds_winner env1 take_one_solver [0] [((0 : ℚ), (1 : ℚ))] = some es ∧
      (es.map (fun e => e.1)).Nodup ∧ (es.map (fun e => e.2)).Nodup ∧
      ([(0, [((0 : ℚ), (1 : ℚ))])] : Alloc) = es.map (fun e => (e.1, [e.2])) ∧
      ([(0, [((0 : ℚ), (1 : ℚ))])] : Alloc).map (fun q => q.1) =
        es.map (fun e => e.1) ∧
      (([(0, [((0 : ℚ), (1 : ℚ))])] : Alloc).map (fun q => q.1)).Nodup ∧
      (∀ e ∈ es, (e.1, [e.2]) ∈ ([(0, [((0 : ℚ), (1 : ℚ))])] : Alloc)) ∧
      (∀ q ∈ ([(0, [((0 : ℚ), (1 : ℚ))])] : Alloc), ∃ p : Piece, q.2 = [p]) ∧
      (([(0, [((0 : ℚ), (1 : ℚ))])] : Alloc).map (fun q => q.2)).Nodup) :=
  ⟨(claim_c3_allocation_invariants env1 take_one_solver [0] 1
      [((0 : ℚ), (1 : ℚ))] [(0, [((0 : ℚ), (1 : ℚ))])] [(0, [((0 : ℚ), (1 : ℚ))])]
      (fun g => take_one_solver_valid g)).1 esp_run_env1,
   (claim_c3_allocation_invariants env1 take_one_solver [0] 1
      [((0 : ℚ), (1 : ℚ))] [(0, [((0 : ℚ), (1 : ℚ))])] [(0, [((0 : ℚ), (1 : ℚ))])]
      (fun g => take_one_solver_valid g)).2 ds_run_env1⟩

/-! ### Zero-weight situations in `discrete_setting` -/

/-- Looking up any edge in an all-zero-weight edge list gives 0. -/
lemma edge_weight_zero (edges : List (Agent × Piece × ℚ))
    (h : ∀ e ∈ edges, e.2.2 = 0) (a : Agent) (p : Piece) :
    edge_weight edges a p = 0 := by
  induction edges with
  | nil => rfl
  | cons e rest ih =>
    rw [edge_weight]
    split
    · exact h e (by simp)
    · exact ih (fun x hx => h x (by simp [hx]))

/-- Any matching has weight 0 on a graph whose edges all weigh 0. -/
lemma calculate_weight_zero (g : MGraph) (h : ∀ e ∈ g.edges, e.2.2 = 0)
    (es : List (Agent × Piece)) : calculate_weight g es = 0 := by
  unfold calculate_weight
  apply List.sum_eq_zero
  intro x hx
  rcases List.mem_map.mp hx with ⟨e, -, rfl⟩
  exact edge_weight_zero g.edges h e.1 e.2

/-- If no iteration beats the running weight, the accumulator never
changes — in particular `max_match` stays `None` from weight 0. -/
lemma best_loop_stay :
    ∀ (xs : List (ℚ × List (Agent × Piece))) (w : ℚ)
      (om : Option (List (Agent × Piece))),
      (∀ x ∈ xs, x.1 ≤ w) → best_loop xs w om = (w, om) := by
  intro xs
  induction xs with
  | nil => intro w om _; rfl
  | cons x xs ih =>
    intro w om h
    rw [best_loop, if_neg (not_lt.mpr (h x (by simp)))]
    exact ih w om (fun y hy => h y (by simp [hy]))

/-- A level whose evaluations are all zero has matching weight 0,
whatever the solver returns. -/
lemma level_weight_zero (env : Env) (solver : Solver) (agents : List Agent)
    (pieces : List Piece) (t : ℕ)
    (hz : ∀ a ∈ agents, ∀ p ∈ change_partition pieces t, (env a).eval p.1 p.2 = 0) :
    (level_data env solver agents pieces t).1 = 0 := by
  show calculate_weight
      (create_matching_graph agents (change_partition pieces t)
        ((change_partition pieces t).map
          (fun p => agents.map (fun a => ((a, p), (env a).eval p.1 p.2)))).flatten)
      (fix_edges (solver (create_matching_graph agents (change_partition pieces t)
        ((change_partition pieces t).map
          (fun p => agents.map (fun a => ((a, p), (env a).eval p.1 p.2)))).flatten))) = 0
  apply calculate_weight_zero
  intro e he
  simp only [create_matching_graph] at he
  rcases List.mem_map.mp he with ⟨w, hw, rfl⟩
  rcases List.mem_flatten.mp hw with ⟨inner, hinner, hwin⟩
  rcases List.mem_map.mp hinner with ⟨p, hp, rfl⟩
  rcases List.mem_map.mp hwin with ⟨a2, ha2, rfl⟩
  simpa using hz a2 ha2 p hp

/-- C6: contrary to the claim, when every agent values every piece at 0,
`discreteSetting` does NOT return a zero-agent allocation: no matching
ever exceeds the initial `max_weight = 0`, `max_match` stays `None`, and
iterating over it raises `TypeError` — for every possible solver. -/
theorem claim_c6_zero_values_type_error (solver : Solver) :
    discrete_setting env0 solver [0] [((0 : ℚ), (1 : ℚ))] = .error .typeError := by
  have hz : ∀ x ∈ ds_levels env0 solver [0] [((0 : ℚ), (1 : ℚ))], x.1 = 0 := by
    intro x hx
    rcases List.mem_map.mp hx with ⟨t, -, rfl⟩
    exact level_weight_zero env0 solver [0] _ t (by intro a _ p _; rfl)
  rw [discrete_setting, ds_winner, if_neg (by simp),
    best_loop_stay _ 0 none (fun x hx => le_of_eq (hz x hx))]

/-- With no agents every evaluation dict is empty, every matching weighs
0, and `discrete_setting` ends in the `TypeError` of iterating `None`. -/
lemma ds_no_agents (env : Env) (solver : Solver) (pieces : List Piece)
    (hp : pieces ≠ []) :
    discrete_setting env solver [] pieces = .error .typeError := by
  have hz : ∀ x ∈ ds_levels env solver [] pieces, x.1 = 0 := by
    intro x hx
    rcases List.mem_map.mp hx with ⟨t, -, rfl⟩
    exact level_weight_zero env solver [] pieces t
      (by intro a ha; exact absurd ha (by simp))
  rw [discrete_setting, ds_winner,
    if_neg (by simpa [List.length_eq_zero] using hp),
    best_loop_stay _ 0 none (fun x hx => le_of_eq (hz x hx))]

/-- C7 counterexample: on an empty agent list (with a well-formed piece
list) `discreteSetting` does not raise the `InvalidInput` `ValueError`
the claim requires — it runs to the end and raises `TypeError`. -/
theorem claim_c7_counterexample :
    discrete_setting env0 take_one_solver [] [((0 : ℚ), (1 : ℚ))] =
      .error .typeError ∧ Err.typeError ≠ Err.valueError :=
  ⟨ds_no_agents env0 take_one_solver _ (by simp), by decide⟩

/-- C7 amended: `discreteSetting` has no explicit validation. An empty
pieces sequence does raise a `ValueError` before any valuation (from
`log(0, 2)`), but an empty agent list is not rejected: the algorithm
runs every coarsening and matching level and only then raises
`TypeError`, because no matching is retained. -/
theorem claim_c7_amended_no_validation (env : Env) (solver : Solver)
    (agents : List Agent) (pieces : List Piece) :
    (pieces = [] → discrete_setting env solver agents pieces = .error .valueError) ∧
    (agents = [] → pieces ≠ [] →
      discrete_setting env solver agents pieces = .error .typeError) := by
  constructor
  · intro hp
    subst hp
    rfl
  · intro ha hp
    subst ha
    exact ds_no_agents env solver pieces hp

/-- Witness for the amended C7: both behaviours at concrete inputs. -/
theorem claim_c7_witness :
    discrete_setting env0 take_one_solver [0] [] = .error .valueError ∧
    discrete_setting env0 take_one_solver [] [((0 : ℚ), (1 : ℚ))] =
      .error .typeError :=
  ⟨(claim_c7_amended_no_validation env0 take_one_solver [0] []).1 rfl,
   (claim_c7_amended_no_validation env0 take_one_solver []
      [((0 : ℚ), (1 : ℚ))]).2 rfl (by simp)⟩

/-- C8: `equallySizedPieces` raises the `InvalidInput` `ValueError`
exactly when the agent list is empty or the piece size is outside (0,1];
the check is the first thing the function does, and on valid inputs the
call returns an allocation, never that error. -/
theorem claim_c8_esp_invalid_input (env : Env) (solver : Solver)
    (agents : List Agent) (l : ℚ) :
    (equally_sized_pieces env solver agents l = .error .valueError ↔
      agents = [] ∨ ¬(0 < l ∧ l ≤ 1)) ∧
    (agents ≠ [] → 0 < l → l ≤ 1 →
      ∃ a, equally_sized_pieces env solver agents l = .ok a) := by
  constructor
  · constructor
    · intro h
      rw [equally_sized_pieces] at h
      split at h
      · rename_i hlen
        exact Or.inl (List.length_eq_zero.mp hlen)
      · split at h
        · rename_i hcond
          exact Or.inr hcond
        · exact absurd h (by simp)
    · intro h
      rw [equally_sized_pieces]
      rcases h with h | h
      · rw [if_pos (by simp [h])]
      · by_cases hlen : agents.length = 0
        · rw [if_pos hlen]
        · rw [if_neg hlen, if_pos h]
  · intro h1 h2 h3
    rw [equally_sized_pieces, if_neg (by simpa [List.length_eq_zero] using h1),
      if_neg (not_not_intro ⟨h2, h3⟩)]
    exact ⟨_, rfl⟩

/-- Witness for C8: the error on an empty agent list, and a successful
run on a valid input. -/
theorem claim_c8_witness :
    equally_sized_pieces env1 take_one_solver [] (1 / 2) = .error .valueError ∧
    ∃ a, equally_sized_pieces env1 take_one_solver [0] (1 / 2) = .ok a :=
  ⟨((claim_c8_esp_invalid_input env1 take_one_solver [] (1 / 2)).1).mpr (Or.inl rfl),
   (claim_c8_esp_invalid_input env1 take_one_solver [0] (1 / 2)).2 (by simp)
     (by norm_num) (by norm_num)⟩

/-- C1 fails on the code: in `equally_sized_pieces` the combined
evaluation dict of BOTH tilings is passed to each `create_matching_graph`
call, so the graph built for tiling `P0` contains an edge from agent 0 to
the piece (2,5), which belongs to the `Pδ` tiling (it is `Pδ`'s declared
right node) and is not among `P0`'s right nodes. Input: two agents on a
length-5 cake (the doctest scenario), piece size 3/5. A maximum-weight
matching computed on this graph may therefore match an agent to the other
tiling's piece. -/
theorem claim_c1_cross_tiling_edge :
    ((0 : Agent), (((2 : ℚ), (5 : ℚ)) : Piece), (3 : ℚ)) ∈
      ((esp_graphs env5 [0, 1] (3 / 5)).1).edges ∧
    (((2 : ℚ), (5 : ℚ)) : Piece) ∉ ((esp_graphs env5 [0, 1] (3 / 5)).1).right ∧
    (((2 : ℚ), (5 : ℚ)) : Piece) ∈ ((esp_graphs env5 [0, 1] (3 / 5)).2).right := by
  norm_num [esp_graphs, esp_normalized, esp_partitions, esp_evaluations,
    create_partition, n_pieces, create_partition_loop, pyInt, cake_len,
    normalize_piece, env5, create_matching_graph]

/-! ### Sorting of boundary points in `continuous_setting` -/

/-- Sorted insertion is a permutation of consing. -/
lemma insert_le_perm (x : ℚ) (xs : List ℚ) :
    List.Perm (insert_le x xs) (x :: xs) := by
  induction xs with
  | nil => exact List.Perm.refl _
  | cons y ys ih =>
    rw [insert_le]
    split
    · exact List.Perm.refl _
    · exact List.Perm.trans (List.Perm.cons y ih) (List.Perm.swap x y ys)

/-- Sorted insertion preserves sortedness. -/
lemma insert_le_sorted (x : ℚ) (xs : List ℚ) (h : xs.Sorted (· ≤ ·)) :
    (insert_le x xs).Sorted (· ≤ ·) := by
  induction xs with
  | nil => simp [insert_le]
  | cons y ys ih =>
    rw [List.sorted_cons] at h
    by_cases hxy : x ≤ y
    · rw [insert_le, if_pos hxy, List.sorted_cons]
      constructor
      · intro b hb
        rcases List.mem_cons.mp hb with rfl | hb
        · exact hxy
        · exact le_trans hxy (h.1 b hb)
      · exact List.sorted_cons.mpr h
    · rw [insert_le, if_neg hxy, List.sorted_cons]
      constructor
      · intro b hb
        rcases List.mem_cons.mp ((insert_le_perm x ys).mem_iff.mp hb) with rfl | hb2
        · exact le_of_not_le hxy
        · exact h.1 b hb2
      · exact ih h.2

/-- `sorted_set` permutes the distinct elements of its input. -/
lemma sorted_set_perm (xs : List ℚ) : List.Perm (sorted_set xs) xs.dedup := by
  unfold sorted_set
  suffices h : ∀ ys : List ℚ, List.Perm (ys.foldr insert_le []) ys from h _
  intro ys
  induction ys with
  | nil => exact List.Perm.refl _
  | cons y ys ih =>
    simp only [List.foldr_cons]
    exact List.Perm.trans (insert_le_perm y _) (List.Perm.cons y ih)

/-- `sorted_set` output is sorted. -/
lemma sorted_set_sorted (xs : List ℚ) : (sorted_set xs).Sorted (· ≤ ·) := by
  unfold sorted_set
  suffices h : ∀ ys : List ℚ, (ys.foldr insert_le []).Sorted (· ≤ ·) from h _
  intro ys
  induction ys with
  | nil => simp
  | cons y ys ih => simpa using insert_le_sorted y _ ih

/-- `sorted_set` output has no duplicates. -/
lemma sorted_set_nodup (xs : List ℚ) : (sorted_set xs).Nodup :=
  (sorted_set_perm xs).nodup_iff.mpr (List.nodup_dedup xs)

/-- C9: `continuousSetting` with probe set `s` (the injected sample of
`⌊n/2⌋` agents) collects each probing agent's rounded mark positions for
successive sub-ranges worth `cake_value/(2n)`, unions them with the point
0 into a sorted duplicate-free boundary list, forms the partition `J` of
consecutive boundaries, and returns unchanged the result of
`discreteSetting` on the agent set minus `s` (duplicates collapsed) with
partition `J`. -/
theorem claim_c9_continuous_pipeline (env : Env) (solver : Solver)
    (agents : List Agent) (s : List Agent)
    (h0 : agents ≠ []) (h1 : s.length = agents.length / 2)
    (h2 : ∀ x ∈ s, x ∈ agents) :
    continuous_setting env solver agents s =
      discrete_setting env solver
        ((agents.filter (fun a => decide (a ∉ s))).dedup)
        ((sorted_set (cs_boundaries env agents.length s)).zip
          (sorted_set (cs_boundaries env agents.length s)).tail) ∧
    (sorted_set (cs_boundaries env agents.length s)).Sorted (· ≤ ·) ∧
    (sorted_set (cs_boundaries env agents.length s)).Nodup ∧
    (0 : ℚ) ∈ cs_boundaries env agents.length s :=
  ⟨rfl, sorted_set_sorted _, sorted_set_nodup _, by simp [cs_boundaries]⟩

/-- Witness for C9: two agents, one probe draw. -/
theorem claim_c9_witness :
    continuous_setting env2 take_one_solver [0, 1] [0] =
      discrete_setting env2 take_one_solver
        (([0, 1].filter (fun a => decide (a ∉ [0]))).dedup)
        ((sorted_set (cs_boundaries env2 [0, 1].length [0])).zip
          (sorted_set (cs_boundaries env2 [0, 1].length [0])).tail) ∧
    (sorted_set (cs_boundaries env2 [0, 1].length [0])).Sorted (· ≤ ·) ∧
    (sorted_set (cs_boundaries env2 [0, 1].length [0])).Nodup ∧
    (0 : ℚ) ∈ cs_boundaries env2 [0, 1].length [0] :=
  claim_c9_continuous_pipeline env2 take_one_solver [0, 1] [0] (by simp) rfl
    (by simp)

/-! ### Degenerate normalized pieces in `equally_sized_pieces` -/

/-- On a unit-length cake with piece size 1/2, the first normalized piece
collapses: `(int(0·1), int(0.5·1)) = (0, 0)`. -/
lemma esp_degenerate_mem :
    (((0 : ℚ), (0 : ℚ)) : Piece) ∈ (esp_normalized env1 [0] (1 / 2)).1 := by
  norm_num [esp_normalized, esp_partitions, create_partition, n_pieces,
    create_partition_loop, pyInt, cake_len, normalize_piece, env1]

/-- C10 counterexample: the normalized tilings of `equallySizedPieces`
CAN contain a degenerate piece with start = end — here the evaluated and
graph-registered piece (0,0) — refuting "never degenerate". -/
theorem claim_c10_counterexample :
    (((0 : ℚ), (0 : ℚ)) : Piece) ∈ (esp_normalized env1 [0] (1 / 2)).1 ∧
    ((0 : Agent), (((0 : ℚ), (0 : ℚ)) : Piece), (1 : ℚ)) ∈
      ((esp_graphs env1 [0] (1 / 2)).1).edges ∧
    ¬ ((0 : ℚ) < (0 : ℚ)) := by
  refine ⟨esp_degenerate_mem, ?_, by norm_num⟩
  norm_num [esp_graphs, esp_normalized, esp_partitions, esp_evaluations,
    create_partition, n_pieces, create_partition_loop, pyInt, cake_len,
    normalize_piece, env1, create_matching_graph]

/-- The offset δ of the second tiling is nonnegative. -/
lemma delta_nonneg (l : ℚ) (hl : 0 < l) : 0 ≤ 1 - (pyInt (1 / l) : ℚ) * l := by
  have h0 : (0 : ℚ) ≤ 1 / l := by positivity
  rw [pyInt, if_pos h0]
  have h1 : (⌊1 / l⌋ : ℚ) ≤ 1 / l := Int.floor_le _
  have h2 : (⌊1 / l⌋ : ℚ) * l ≤ (1 / l) * l := mul_le_mul_of_nonneg_right h1 hl.le
  have h3 : (1 / l) * l = 1 := by field_simp
  linarith

/-- C10 amended: every normalized piece of `equallySizedPieces` satisfies
start ≤ end (truncation is monotone on the nonnegative coordinates), and
start < end is guaranteed only when `piece_size · cake_length ≥ 1`; with
`piece_size · cake_length < 1` a degenerate piece with start = end can
occur (see the counterexample). -/
theorem claim_c10_amended (env : Env) (agents : List Agent) (l : ℚ)
    (h1 : 0 < l) (h2 : 0 ≤ cake_len env agents) :
    (∀ p ∈ (esp_normalized env agents l).1, p.1 ≤ p.2) ∧
    (1 ≤ l * cake_len env agents →
      ∀ p ∈ (esp_normalized env agents l).1, p.1 < p.2) := by
  have main : ∀ p ∈ (esp_normalized env agents l).1,
      ∃ q : Piece, q.2 = q.1 + l ∧ 0 ≤ q.1 ∧
        p = normalize_piece (cake_len env agents) q := by
    intro p hp
    unfold esp_normalized esp_partitions at hp
    rcases List.mem_map.mp hp with ⟨q, hq, rfl⟩
    rcases List.mem_append.mp hq with hq | hq
    · obtain ⟨he, hs⟩ := create_partition_mem l 0 h1 q hq
      exact ⟨q, he, by linarith, rfl⟩
    · obtain ⟨he, hs⟩ := create_partition_mem l _ h1 q hq
      have hd := delta_nonneg l h1
      exact ⟨q, he, by linarith, rfl⟩
  constructor
  · intro p hp
    obtain ⟨q, he, hq0, rfl⟩ := main p hp
    show ((pyInt (q.1 * cake_len env agents) : ℤ) : ℚ) ≤
      ((pyInt (q.2 * cake_len env agents) : ℤ) : ℚ)
    have hm : q.1 * cake_len env agents ≤ q.2 * cake_len env agents := by
      have hq12 : q.1 ≤ q.2 := by rw [he]; linarith
      exact mul_le_mul_of_nonneg_right hq12 h2
    have h01 : (0 : ℚ) ≤ q.1 * cake_len env agents := mul_nonneg hq0 h2
    have h02 : (0 : ℚ) ≤ q.2 * cake_len env agents := le_trans h01 hm
    simp only [pyInt]
    rw [if_pos h01, if_pos h02]
    exact_mod_cast Int.floor_le_floor hm
  · intro hlL p hp
    obtain ⟨q, he, hq0, rfl⟩ := main p hp
    show ((pyInt (q.1 * cake_len env agents) : ℤ) : ℚ) <
      ((pyInt (q.2 * cake_len env agents) : ℤ) : ℚ)
    have h01 : (0 : ℚ) ≤ q.1 * cake_len env agents := mul_nonneg hq0 h2
    have hstep : q.1 * cake_len env agents + 1 ≤ q.2 * cake_len env agents := by
      rw [he]
      have hexp : (q.1 + l) * cake_len env agents =
          q.1 * cake_len env agents + l * cake_len env agents := by ring
      rw [hexp]
      linarith
    have h02 : (0 : ℚ) ≤ q.2 * cake_len env agents := le_trans (by linarith) hstep
    simp only [pyInt]
    rw [if_pos h01, if_pos h02]
    have hf : ⌊q.1 * cake_len env agents + 1⌋ ≤ ⌊q.2 * cake_len env agents⌋ :=
      Int.floor_le_floor hstep
    rw [Int.floor_add_one] at hf
    exact_mod_cast by omega

/-- Witness for the amended C10, at the degenerate piece of the
counterexample input. -/
theorem claim_c10_witness :
    ((((0 : ℚ), (0 : ℚ)) : Piece).1 ≤ (((0 : ℚ), (0 : ℚ)) : Piece).2) ∧
    (0 : ℚ) ≤ cake_len env1 [0] :=
  ⟨(claim_c10_amended env1 [0] (1 / 2) (by norm_num)
      (by norm_num [cake_len, env1])).1 (((0 : ℚ), (0 : ℚ))) esp_degenerate_mem,
   by norm_num [cake_len, env1]⟩
